import Mathlib

/-!
Verification of the `react-data-table` widget (src/src/index.tsx).

The component is a sort → filter → paginate pipeline over an array of row
records, together with interaction handlers (search input, page-size select,
column-header sort toggle, Previous/Next pagination buttons).

Shallow embedding conventions:
* Row field values are modelled by `Value` (JS `undefined`, strings, and
  integer numbers).  JS `<` on two strings compares code units
  lexicographically (`strLtB`); on two numbers it is numeric order; any
  comparison involving `undefined` is `false` (NaN path).  Coercion of a
  numeric string when comparing a string against a number is not modelled:
  no claim exercises mixed-type ordering, which the spec leaves unspecified.
* A row is an association list from field names to values; a missing field
  reads as `Value.undefined`, matching JS property access on a missing key.
* Fallible JS evaluation (calling `.toString()` on `undefined` throws a
  TypeError) is modelled with `Option`: `none` is an uncaught exception.
* `[...data].sort(cmp)` is modelled by a stable insertion sort `isortLe`
  with the insert-before test `cmp a b ≤ 0`.  ECMAScript (ES2019+) requires
  `Array.prototype.sort` to be stable, and for a consistent comparator the
  stable sorted permutation is unique, so any compliant engine agrees with
  this model there.
* `Math.ceil(len / pageSize)` for natural `len` and positive `pageSize` is
  the natural-number ceiling division `ceilDiv`.
-/

/-- A JS value that can sit in a row field: `undefined`, a string, or a
number (restricted to integers, which is all the claims need). -/
inductive Value where
  | undefined : Value
  | str : String → Value
  | num : Int → Value
deriving DecidableEq

/-- A row record: an association list from field names to values
(`interface`-free model of the source's `any` rows). -/
abbrev Row : Type := List (String × Value)

/-- JS property access `row[k]`: the stored value, or `undefined` when the
field is missing. -/
def rowGet (r : Row) (k : String) : Value :=
  (r.lookup k).getD .undefined

/-- A column descriptor (src/src/index.tsx lines 4-9).  The optional
`render` function only affects the presentation surface, not the
sort/filter/paginate pipeline, so it is not modelled. -/
structure Column where
  header : String
  accessor : String
  sortable : Bool := false
deriving DecidableEq

/-- Lexicographic code-unit comparison of character lists, the order JS `<`
uses on strings. -/
def listLtB : List Char → List Char → Bool
  | [], [] => false
  | [], _ :: _ => true
  | _ :: _, [] => false
  | a :: as, b :: bs =>
    if a.toNat < b.toNat then true
    else if b.toNat < a.toNat then false
    else listLtB as bs

/-- JS `<` on two strings. -/
def strLtB (s t : String) : Bool := listLtB s.data t.data

/-- JS `<` on two `Value`s as used by the sort comparator (lines 40 and 43).
Any comparison with `undefined` is `false` (the NaN path of the abstract
relational comparison). -/
def jsLt : Value → Value → Bool
  | .str s, .str t => strLtB s t
  | .num i, .num j => decide (i < j)
  | _, _ => false

/-- JS `>` on two `Value`s: `a > b` holds exactly when `b < a`. -/
def jsGt (a b : Value) : Bool := jsLt b a

/-- JS `value.toString()`: throws (`none`) on `undefined`, otherwise the
string form of the value. -/
def jsToString : Value → Option String
  | .undefined => none
  | .str s => some s
  | .num n => some (toString n)

/-- JS `String.prototype.toLowerCase` (ASCII-faithful). -/
def toLowerStr (s : String) : String := ⟨s.data.map Char.toLower⟩

/-- Whether the first list is an initial segment of the second. -/
def leadsWith : List Char → List Char → Bool
  | [], _ => true
  | _ :: _, [] => false
  | a :: as, b :: bs => a == b && leadsWith as bs

/-- Whether the first list occurs contiguously inside the second. -/
def containsSub (n : List Char) : List Char → Bool
  | [] => leadsWith n []
  | b :: t => leadsWith n (b :: t) || containsSub n t

/-- JS `hay.includes(needle)`: substring containment. -/
def jsIncludes (hay needle : String) : Bool := containsSub needle.data hay.data

/-- Sort direction (line 24). -/
inductive Direction where
  | ascending : Direction
  | descending : Direction
deriving DecidableEq

/-- The active sort specification (`sortConfig`, line 24). -/
structure SortConfig where
  key : String
  direction : Direction
deriving DecidableEq

/-- The sort comparator passed to `Array.prototype.sort` (lines 39-47):
`-1` when `a[key] < b[key]`, `1` when `a[key] > b[key]`, `0` otherwise, with
the sign flipped for direction `descending`. -/
def jsCompare (dir : Direction) (a b : Value) : Int :=
  if jsLt a b then
    match dir with
    | .ascending => -1
    | .descending => 1
  else if jsGt a b then
    match dir with
    | .ascending => 1
    | .descending => -1
  else 0

/-- Stable insertion of `x` into `l`: `x` goes immediately before the first
element `b` with `le x b`. -/
def insertLe {α : Type} (le : α → α → Bool) (x : α) : List α → List α
  | [] => [x]
  | b :: bs => if le x b then x :: b :: bs else b :: insertLe le x bs

/-- Stable insertion sort: the model of `[...data].sort` (stability is
required of `Array.prototype.sort` by ES2019). -/
def isortLe {α : Type} (le : α → α → Bool) : List α → List α
  | [] => []
  | a :: l => insertLe le a (isortLe le l)

/-- Adjacent-pairs ordering check: every element is `le` its successor. -/
def chainB {α : Type} (le : α → α → Bool) : List α → Bool
  | [] => true
  | [_] => true
  | a :: b :: l => le a b && chainB le (b :: l)

/-- Whether a value is a string. -/
def isStrB : Value → Bool
  | .str _ => true
  | _ => false

/-- Whether a value is a number. -/
def isNumB : Value → Bool
  | .num _ => true
  | _ => false

/-- All rows hold values of one homogeneous primitive type (all strings or
all numbers) at `key`: the regime in which JS `<`/`>` give the comparator a
consistent ordering.  (The spec leaves mixed or undefined field types
"unspecified but non-crashing".) -/
def HomKeyB (data : List Row) (key : String) : Bool :=
  (data.all fun r => isStrB (rowGet r key)) || (data.all fun r => isNumB (rowGet r key))

/-- `cmp(a, b) ≤ 0` for two rows under the comparator of lines 39-47: the
insert-before test that characterises the stable sorted order. -/
def rowLe (dir : Direction) (key : String) (a b : Row) : Bool :=
  decide (jsCompare dir (rowGet a key) (rowGet b key) ≤ 0)

/-- `sortedData` (lines 36-48): the input array when sorting is disabled or
no sort is set, otherwise a stable sort of a copy of `data` by the
comparator on the configured key. -/
def sortedData (sorting : Bool) (cfg : Option SortConfig) (data : List Row) : List Row :=
  match sorting, cfg with
  | true, some c => isortLe (rowLe c.direction c.key) data
  | _, _ => data

/-- One row's filter predicate (line 54),
`columns.some(c => row[c.accessor].toString().toLowerCase().includes(term.toLowerCase()))`,
with left-to-right short-circuit evaluation: `none` models the TypeError
thrown when `row[c.accessor]` is `undefined`. -/
def rowMatchesE (cols : List Column) (term : String) (row : Row) : Option Bool :=
  match cols with
  | [] => some false
  | c :: cs =>
    match jsToString (rowGet row c.accessor) with
    | none => none
    | some s =>
      if jsIncludes (toLowerStr s) (toLowerStr term) then some true
      else rowMatchesE cs term row

/-- `Array.prototype.filter` with a throwing predicate: the first `none`
aborts the whole evaluation. -/
def filterE (pred : Row → Option Bool) : List Row → Option (List Row)
  | [] => some []
  | r :: rs =>
    match pred r with
    | none => none
    | some b =>
      match filterE pred rs with
      | none => none
      | some l => some (if b then r :: l else l)

/-- The total filter predicate the spec describes: some column's value,
stringified and lowercased, contains the lowercased search term; an
`undefined` value simply does not match. -/
def totalMatch (cols : List Column) (term : String) (row : Row) : Bool :=
  cols.any fun c =>
    match jsToString (rowGet row c.accessor) with
    | some s => jsIncludes (toLowerStr s) (toLowerStr term)
    | none => false

/-- `filteredData` (lines 50-56): the sorted sequence when filtering is
disabled or the search term is empty (JS `!searchTerm`), otherwise the
result of filtering it, where a thrown TypeError is `none`. -/
def filteredDataE (filtering : Bool) (term : String) (cols : List Column)
    (sorted : List Row) : Option (List Row) :=
  if filtering = false ∨ term = "" then some sorted
  else filterE (rowMatchesE cols term) sorted

/-- Every row has a defined (non-`undefined`) value at every column's
accessor: the precondition under which the filter stage cannot throw. -/
def AllDefB (cols : List Column) (rows : List Row) : Bool :=
  rows.all fun r => cols.all fun c => !(rowGet r c.accessor == .undefined)

/-- Natural-number ceiling division: `Math.ceil(n / m)` for natural `n` and
positive `m` (the code never divides by zero on the claims' domain). -/
def ceilDiv (n m : Nat) : Nat := (n + m - 1) / m

/-- `totalPages` (line 71): `Math.ceil(filteredData.length / pageSize)`.
Note there is no flooring to 1. -/
def totalPages (len ps : Nat) : Nat := ceilDiv len ps

/-- Resolution of one `Array.prototype.slice` index against a length:
a negative index counts from the end, and the result is clipped to
`[0, len]`. -/
def clipIndex (len : Nat) (i : Int) : Nat :=
  (if i < 0 then max ((len : Int) + i) 0 else min i (len : Int)).toNat

/-- JS `Array.prototype.slice(s, e)`: the elements of the window
`[clip s, clip e)`. -/
def jsSlice {α : Type} (l : List α) (s e : Int) : List α :=
  (l.take (clipIndex l.length e)).drop (clipIndex l.length s)

/-- `paginatedData` (lines 58-61): the slice of the filtered sequence from
`(currentPage - 1) * pageSize`, of length at most `pageSize`. -/
def paginatedData (page ps : Nat) (l : List Row) : List Row :=
  jsSlice l (((page : Int) - 1) * ps) (((page : Int) - 1) * ps + ps)

/-- The widget's mutable state (lines 21-24). -/
structure WState where
  currentPage : Nat
  pageSize : Nat
  searchTerm : String
  sortConfig : Option SortConfig
deriving DecidableEq

/-- `handleSearch` (lines 26-29): store the new term and reset the page
to 1. -/
def handleSearch (t : String) (s : WState) : WState :=
  { s with searchTerm := t, currentPage := 1 }

/-- `handlePageSizeChange` (lines 31-34): store the selected size (the
select menu offers 5/10/25/50, already coerced by `Number`) and reset the
page to 1. -/
def handlePageSizeChange (n : Nat) (s : WState) : WState :=
  { s with pageSize := n, currentPage := 1 }

/-- `handleSort` (lines 63-69): ascending unless the active sort is already
ascending on the same key, in which case descending; always produces an
active sort on `key`. -/
def handleSort (key : String) (cfg : Option SortConfig) : Option SortConfig :=
  let direction : Direction :=
    match cfg with
    | some c => if c.key == key && c.direction == .ascending then .descending else .ascending
    | none => .ascending
  some ⟨key, direction⟩

/-- The Previous button's update (line 122): `Math.max(prev - 1, 1)`. -/
def prevClick (p : Nat) : Nat := max (p - 1) 1

/-- The Previous button's `disabled` condition (line 122). -/
def prevDisabled (p : Nat) : Bool := p == 1

/-- The Next button's update (line 129): `Math.min(prev + 1, totalPages)`. -/
def nextClick (p t : Nat) : Nat := min (p + 1) t

/-- The Next button's `disabled` condition (line 130). -/
def nextDisabled (p t : Nat) : Bool := p == t

/-- The construction-time inputs the pipeline reads (lines 11-18); the
initial page size is handled separately by `initPageSizeJs`. -/
structure TableProps where
  columns : List Column
  data : List Row
  sorting : Bool
  filtering : Bool

/-- The derived `filteredData` of a state: sort, then filter (`none` when
the filter throws). -/
def pipelineE (P : TableProps) (s : WState) : Option (List Row) :=
  filteredDataE P.filtering s.searchTerm P.columns
    (sortedData P.sorting s.sortConfig P.data)

/-- `filteredData.length` of a state (0 in the crash case, which the
reachability theorems exclude by hypothesis). -/
def fcountD (P : TableProps) (s : WState) : Nat :=
  ((pipelineE P s).getD []).length

/-- `totalPages` of a state (line 71). -/
def totalPagesD (P : TableProps) (s : WState) : Nat :=
  totalPages (fcountD P s) s.pageSize

/-- The mount-time state (lines 21-24): page 1, the configured initial page
size, empty search term, no active sort. -/
def initState (ps0 : Nat) : WState := ⟨1, ps0, "", none⟩

/-- One user interaction: search input, page-size selection (options
5/10/25/50), a sortable column-header click with sorting enabled, or an
enabled Previous/Next button click. -/
inductive Step (P : TableProps) : WState → WState → Prop where
  | search (t : String) (s : WState) : Step P s (handleSearch t s)
  | selectSize (n : Nat) (s : WState) (hn : n = 5 ∨ n = 10 ∨ n = 25 ∨ n = 50) :
      Step P s (handlePageSizeChange n s)
  | sortHeader (c : Column) (s : WState) (hc : c ∈ P.columns) (hs : P.sorting = true)
      (hb : c.sortable = true) :
      Step P s { s with sortConfig := handleSort c.accessor s.sortConfig }
  | prevB (s : WState) (h : prevDisabled s.currentPage = false) :
      Step P s { s with currentPage := prevClick s.currentPage }
  | nextB (s : WState) (h : nextDisabled s.currentPage (totalPagesD P s) = false) :
      Step P s { s with currentPage := nextClick s.currentPage (totalPagesD P s) }

/-- States reachable from mount through the interaction handlers. -/
def Reachable (P : TableProps) (ps0 : Nat) (s : WState) : Prop :=
  Relation.ReflTransGen (Step P) (initState ps0) s

/-- A JS number as far as truthiness is concerned: NaN or an integer. -/
inductive JsNum where
  | nan : JsNum
  | val : Int → JsNum
deriving DecidableEq

/-- JS truthiness of a number: NaN and 0 are falsy. -/
def jsTruthy : JsNum → Bool
  | .nan => false
  | .val n => decide (n ≠ 0)

/-- The initial page size expression `pagination?.pageSize || 10`
(line 23): 10 when the pagination prop is absent or its `pageSize` is
falsy, otherwise the configured value. -/
def initPageSizeJs : Option JsNum → JsNum
  | none => .val 10
  | some p => if jsTruthy p then p else .val 10

/-- Row `{name: "Amy"}` from the spec's scenarios. -/
def amyRow : Row := [("name", .str "Amy")]

/-- Row `{name: "Bob"}` from the spec's scenarios. -/
def bobRow : Row := [("name", .str "Bob")]

/-- Row `{name: "Cid"}` from the spec's scenarios. -/
def cidRow : Row := [("name", .str "Cid")]

/-- Column `{header: "Name", accessor: "name", sortable: true}` from the
spec's scenarios. -/
def nameColumn : Column := { header := "Name", accessor := "name", sortable := true }

/-! ### Helper lemmas -/

theorem handleSort_isSome (key : String) (cfg : Option SortConfig) :
    (handleSort key cfg).isSome = true := rfl

theorem foldl_handleSort_isSome (ks : List String) :
    ∀ c : Option SortConfig, c.isSome = true →
      (ks.foldl (fun c k => handleSort k c) c).isSome = true := by
  induction ks with
  | nil => exact fun c hc => hc
  | cons k ks ih =>
    intro c _
    exact ih (handleSort k c) (handleSort_isSome k c)

theorem jsToString_eq_none_iff (v : Value) : jsToString v = none ↔ v = .undefined := by
  cases v <;> simp [jsToString]

theorem rowMatchesE_eq_totalMatch (cols : List Column) (term : String) (row : Row)
    (h : ∀ c ∈ cols, rowGet row c.accessor ≠ .undefined) :
    rowMatchesE cols term row = some (totalMatch cols term row) := by
  induction cols with
  | nil => rfl
  | cons c cs ih =>
    have hc : rowGet row c.accessor ≠ .undefined := h c (List.mem_cons_self c cs)
    simp only [rowMatchesE, totalMatch, List.any_cons]
    cases hv : jsToString (rowGet row c.accessor) with
    | none => exact absurd ((jsToString_eq_none_iff _).mp hv) hc
    | some s =>
      cases hinc : jsIncludes (toLowerStr s) (toLowerStr term) with
      | true => simp [hinc]
      | false =>
        simp only [hinc, Bool.false_or, if_neg (show ¬(false = true) by simp)]
        exact ih fun c' hc' => h c' (List.mem_cons_of_mem c hc')

theorem filterE_eq_filter (cols : List Column) (term : String) (rows : List Row)
    (h : ∀ r ∈ rows, ∀ c ∈ cols, rowGet r c.accessor ≠ .undefined) :
    filterE (rowMatchesE cols term) rows = some (rows.filter (totalMatch cols term)) := by
  induction rows with
  | nil => rfl
  | cons r rs ih =>
    simp only [filterE]
    rw [rowMatchesE_eq_totalMatch cols term r (h r (List.mem_cons_self r rs))]
    rw [ih fun r' hr' => h r' (List.mem_cons_of_mem r hr')]
    cases hb : totalMatch cols term r <;> simp [List.filter_cons, hb]

theorem allDef_spec (cols : List Column) (rows : List Row) (h : AllDefB cols rows = true) :
    ∀ r ∈ rows, ∀ c ∈ cols, rowGet r c.accessor ≠ .undefined := by
  intro r hr c hc
  simp only [AllDefB, List.all_eq_true] at h
  have := h r hr c hc
  simpa using this

theorem ceilDiv_mul_ge (len ps : Nat) (hps : 0 < ps) : len ≤ ceilDiv len ps * ps := by
  unfold ceilDiv
  rw [Nat.mul_comm]
  have h := Nat.div_add_mod (len + ps - 1) ps
  have h2 : (len + ps - 1) % ps < ps := Nat.mod_lt _ hps
  generalize (len + ps - 1) % ps = r at h h2
  generalize ps * ((len + ps - 1) / ps) = m at h ⊢
  omega

theorem join_pages (l : List Row) (ps : Nat) (k : Nat) :
    ((List.range k).map fun i => (l.drop (i * ps)).take ps).flatten = l.take (k * ps) := by
  induction k with
  | zero => simp
  | succ k ih =>
    rw [List.range_succ, List.map_append, List.flatten_append, ih]
    simp only [List.map_cons, List.map_nil, List.flatten_cons, List.flatten_nil,
      List.append_nil]
    rw [Nat.succ_mul, List.take_add]

theorem paginatedData_eq_drop_take (l : List Row) (page ps : Nat) (h1 : 1 ≤ page) :
    paginatedData page ps l = (l.drop ((page - 1) * ps)).take ps := by
  unfold paginatedData jsSlice clipIndex
  have hc : ((page : Int) - 1) * (ps : Int) = (((page - 1) * ps : Nat) : Int) := by
    rw [Nat.cast_mul, Int.ofNat_sub h1]
    simp
  rw [hc]
  set n := (page - 1) * ps with hn
  rw [if_neg (by omega), if_neg (by omega)]
  have e1 : (min ((n : Nat) : Int) ((l.length : Nat) : Int)).toNat = min n l.length := by
    omega
  have e2 : (min (((n : Nat) : Int) + (ps : Int)) ((l.length : Nat) : Int)).toNat
      = min (n + ps) l.length := by omega
  rw [e1, e2]
  rcases le_or_lt n l.length with hle | hlt
  · rw [Nat.min_eq_left hle]
    rcases le_or_lt (n + ps) l.length with h2 | h2
    · rw [Nat.min_eq_left h2, List.take_drop]
    · rw [Nat.min_eq_right (le_of_lt h2), List.take_of_length_le (le_refl _),
        List.take_of_length_le (by simp; omega)]
  · rw [Nat.min_eq_right (le_of_lt hlt), Nat.min_eq_right (by omega : l.length ≤ n + ps)]
    rw [List.drop_eq_nil_of_le (by simp), List.drop_eq_nil_of_le (le_of_lt hlt)]
    simp

/-! ### Claim theorems -/

/-- C9: the search-input handler and the page-size handler each store their
new value and reset `currentPage` to 1, from every prior state (so also
when it is already 1). -/
theorem C9_reset_page (t : String) (n : Nat) (s : WState) :
    (handleSearch t s).currentPage = 1 ∧ (handleSearch t s).searchTerm = t ∧
    (handlePageSizeChange n s).currentPage = 1 ∧ (handlePageSizeChange n s).pageSize = n :=
  ⟨rfl, rfl, rfl, rfl⟩

/-- C7: Previous decrements floored at 1 and is a disabled no-op at page 1;
Next increments ceilinged at `totalPages` and is disabled at the last page;
and whenever `currentPage` lies in `[1, totalPages]`, both updates keep it
there. -/
theorem C7_page_buttons (p t : Nat) :
    prevClick p = max (p - 1) 1 ∧
    (prevDisabled p = true ↔ p = 1) ∧
    prevClick 1 = 1 ∧
    nextClick p t = min (p + 1) t ∧
    (nextDisabled p t = true ↔ p = t) ∧
    (1 ≤ p → p ≤ t →
      1 ≤ prevClick p ∧ prevClick p ≤ t ∧ 1 ≤ nextClick p t ∧ nextClick p t ≤ t) := by
  refine ⟨rfl, by simp [prevDisabled], rfl, rfl, by simp [nextDisabled], ?_⟩
  intro h1 h2
  unfold prevClick nextClick
  omega

theorem C7_page_buttons_witness :
    1 ≤ 2 ∧ 2 ≤ 3 ∧
    1 ≤ prevClick 2 ∧ prevClick 2 ≤ 3 ∧ 1 ≤ nextClick 2 3 ∧ nextClick 2 3 ≤ 3 := by
  have h := (C7_page_buttons 2 3).2.2.2.2.2 (by decide) (by decide)
  exact ⟨by decide, by decide, h.1, h.2.1, h.2.2.1, h.2.2.2⟩

/-- C5: the header toggle is two-state: from no sort or a sort on another
key it yields `{key, ascending}`; from `{key, ascending}` it yields
`{key, descending}`; from `{key, descending}` it yields `{key, ascending}`;
and any sequence of activations leaves an active sort (never back to
none). -/
theorem C5_sort_toggle (key : String) (cfg : Option SortConfig) :
    handleSort key none = some ⟨key, .ascending⟩ ∧
    (∀ c : SortConfig, c.key ≠ key → handleSort key (some c) = some ⟨key, .ascending⟩) ∧
    handleSort key (some ⟨key, .ascending⟩) = some ⟨key, .descending⟩ ∧
    handleSort key (some ⟨key, .descending⟩) = some ⟨key, .ascending⟩ ∧
    (∀ ks : List String,
      (ks.foldl (fun c k => handleSort k c) (handleSort key cfg)).isSome = true) := by
  refine ⟨rfl, ?_, by simp [handleSort], by simp [handleSort], ?_⟩
  · intro c hc
    have hb : (c.key == key) = false := by
      simpa using hc
    simp [handleSort, hb]
  · intro ks
    exact foldl_handleSort_isSome ks _ (handleSort_isSome key cfg)

theorem C5_sort_toggle_witness :
    (SortConfig.mk "b" .ascending).key ≠ "a" ∧
    handleSort "a" (some ⟨"b", .ascending⟩) = some ⟨"a", .ascending⟩ :=
  ⟨by decide, (C5_sort_toggle "a" none).2.1 ⟨"b", .ascending⟩ (by decide)⟩

/-- C10: the initial page size is the default 10 when the pagination prop
is omitted or its `pageSize` is falsy (0 or NaN), and the configured value
exactly when it is truthy. -/
theorem C10_init_page_size :
    initPageSizeJs none = .val 10 ∧
    initPageSizeJs (some (.val 0)) = .val 10 ∧
    initPageSizeJs (some .nan) = .val 10 ∧
    (∀ p : JsNum, jsTruthy p = true → initPageSizeJs (some p) = p) ∧
    (∀ p : JsNum, jsTruthy p = false → initPageSizeJs (some p) = .val 10) := by
  refine ⟨rfl, rfl, rfl, ?_, ?_⟩ <;> intro p hp <;> simp [initPageSizeJs, hp]

theorem C10_init_page_size_witness :
    jsTruthy (.val 25) = true ∧ initPageSizeJs (some (.val 25)) = .val 25 :=
  ⟨by decide, C10_init_page_size.2.2.2.1 (.val 25) (by decide)⟩

/-- C2: contrary to the claim, the filter stage *can* fail: on a row that
lacks the column's accessor field (so `row[accessor]` is `undefined`), the
source's `row[column.accessor].toString()` throws a TypeError, modelled
here as `none`.  With `columns = [{accessor: "name"}]`, `data = [{}]`,
filtering enabled and search term `"a"`, the filter evaluation errors
instead of treating the row as non-matching. -/
theorem C2_filter_error :
    rowGet ([] : Row) "name" = .undefined ∧
    filteredDataE true "a" [nameColumn] [([] : Row)] = none :=
  ⟨rfl, rfl⟩

/-- C3: with filtering enabled, a non-empty search term, and every row
defined at every column accessor, `filteredData` is exactly the
order-preserving filter of the (sorted) input keeping a row iff some
column's value, stringified and lowercased, contains the lowercased term. -/
theorem C3_filter_spec (cols : List Column) (term : String) (l : List Row)
    (hterm : term ≠ "") (hdef : AllDefB cols l = true) :
    filteredDataE true term cols l = some (l.filter (totalMatch cols term)) := by
  unfold filteredDataE
  rw [if_neg]
  · exact filterE_eq_filter cols term l (allDef_spec cols l hdef)
  · simp [hterm]

/-- Scenario witness for C3: term `"a"` over `[{name:"Amy"}, {name:"Bob"}]`
keeps exactly `[{name:"Amy"}]`. -/
theorem C3_filter_spec_witness :
    ("a" : String) ≠ "" ∧ AllDefB [nameColumn] [amyRow, bobRow] = true ∧
    filteredDataE true "a" [nameColumn] [amyRow, bobRow] = some [amyRow] := by
  refine ⟨by decide, by decide, ?_⟩
  have h := C3_filter_spec [nameColumn] "a" [amyRow, bobRow] (by decide) (by decide)
  rw [h]
  rfl

/-- C6: for every page index at least 1 and positive page size,
`paginatedData` has length at most `pageSize`; it equals the slice of the
filtered sequence starting at `(currentPage - 1) * pageSize` of length at
most `pageSize` clipped to the available length; and concatenating the
pages `1 .. totalPages` in order restores the filtered sequence exactly. -/
theorem C6_pagination_slice (l : List Row) (page ps : Nat) (h1 : 1 ≤ page) (hps : 0 < ps) :
    (paginatedData page ps l).length ≤ ps ∧
    paginatedData page ps l = (l.drop ((page - 1) * ps)).take ps ∧
    ((List.range (totalPages l.length ps)).map fun i => paginatedData (i + 1) ps l).flatten
      = l := by
  have h2 := paginatedData_eq_drop_take l page ps h1
  refine ⟨?_, h2, ?_⟩
  · rw [h2, List.length_take]
    exact Nat.min_le_left _ _
  · have hmap : ((List.range (totalPages l.length ps)).map fun i => paginatedData (i + 1) ps l)
        = (List.range (totalPages l.length ps)).map fun i => (l.drop (i * ps)).take ps := by
      refine List.map_congr_left fun i _ => ?_
      rw [paginatedData_eq_drop_take l (i + 1) ps (by omega)]
      simp
    rw [hmap, join_pages]
    exact List.take_of_length_le (ceilDiv_mul_ge l.length ps hps)

/-- Witness for C6: the spec's 5-row, page-size-2 scenario, on page 3. -/
theorem C6_pagination_slice_witness :
    1 ≤ 3 ∧ 0 < 2 ∧
    (paginatedData 3 2 [amyRow, bobRow, cidRow, amyRow, bobRow]).length ≤ 2 ∧
    ((List.range (totalPages ([amyRow, bobRow, cidRow, amyRow, bobRow] : List Row).length 2)).map
        fun i => paginatedData (i + 1) 2 [amyRow, bobRow, cidRow, amyRow, bobRow]).flatten
      = [amyRow, bobRow, cidRow, amyRow, bobRow] := by
  have h := C6_pagination_slice [amyRow, bobRow, cidRow, amyRow, bobRow] 3 2 (by decide)
    (by decide)
  exact ⟨by decide, by decide, h.1, h.2.2⟩

/-! ### Order lemmas for the sort comparator -/

theorem listLtB_asymm : ∀ a b : List Char, listLtB a b = true → listLtB b a = false := by
  intro a
  induction a with
  | nil =>
    intro b h
    cases b with
    | nil => simp [listLtB] at h
    | cons y ys => simp [listLtB]
  | cons x xs ih =>
    intro b h
    cases b with
    | nil => simp [listLtB] at h
    | cons y ys =>
      simp only [listLtB] at h ⊢
      rcases Nat.lt_trichotomy x.toNat y.toNat with h1 | h1 | h1
      · rw [if_neg (by omega), if_pos h1]
      · rw [if_neg (by omega), if_neg (by omega)] at h
        rw [if_neg (by omega), if_neg (by omega)]
        exact ih ys h
      · rw [if_neg (by omega), if_pos h1] at h
        exact absurd h (by simp)

theorem listLtB_cotrans : ∀ c a b : List Char, listLtB c a = true →
    listLtB c b = true ∨ listLtB b a = true := by
  intro c
  induction c with
  | nil =>
    intro a b h
    cases a with
    | nil => simp [listLtB] at h
    | cons a0 as =>
      cases b with
      | nil => right; simp [listLtB]
      | cons b0 bs => left; simp [listLtB]
  | cons c0 ct ih =>
    intro a b h
    cases a with
    | nil => simp [listLtB] at h
    | cons a0 as =>
      cases b with
      | nil => right; simp [listLtB]
      | cons b0 bs =>
        simp only [listLtB] at h ⊢
        rcases Nat.lt_trichotomy c0.toNat a0.toNat with h1 | h1 | h1
        · rcases Nat.lt_trichotomy c0.toNat b0.toNat with h2 | h2 | h2
          · left
            rw [if_pos h2]
          · right
            rw [if_pos (show b0.toNat < a0.toNat by omega)]
          · right
            rw [if_pos (show b0.toNat < a0.toNat by omega)]
        · rw [if_neg (by omega), if_neg (by omega)] at h
          rcases Nat.lt_trichotomy c0.toNat b0.toNat with h2 | h2 | h2
          · left
            rw [if_pos h2]
          · rcases ih as bs h with h' | h'
            · left
              rw [if_neg (by omega), if_neg (by omega)]
              exact h'
            · right
              rw [if_neg (by omega), if_neg (by omega)]
              exact h'
          · right
            rw [if_pos (show b0.toNat < a0.toNat by omega)]
        · rw [if_neg (by omega), if_pos h1] at h
          exact absurd h (by simp)

theorem jsLt_asymm (a b : Value) : jsLt a b = true → jsLt b a = false := by
  cases a <;> cases b <;> simp [jsLt] <;> try omega
  · exact fun h => by simpa using listLtB_asymm _ _ (by simpa [strLtB] using h)

theorem jsCompare_neg (dir : Direction) (a b : Value) :
    jsCompare dir b a = - jsCompare dir a b := by
  cases hab : jsLt a b with
  | true =>
    have hba := jsLt_asymm a b hab
    cases dir <;> simp [jsCompare, jsGt, hab, hba]
  | false =>
    cases hba : jsLt b a with
    | true => cases dir <;> simp [jsCompare, jsGt, hab, hba]
    | false => cases dir <;> simp [jsCompare, jsGt, hab, hba]

theorem jsCompare_desc (a b : Value) :
    jsCompare .descending a b = - jsCompare .ascending a b := by
  unfold jsCompare
  split_ifs <;> rfl

theorem rowLe_total (dir : Direction) (key : String) (a b : Row) :
    rowLe dir key a b = true ∨ rowLe dir key b a = true := by
  unfold rowLe
  rw [jsCompare_neg dir (rowGet a key) (rowGet b key)]
  simp only [decide_eq_true_eq]
  omega

/-! ### Generic lemmas about the stable insertion sort -/

theorem insertLe_perm {α : Type} (le : α → α → Bool) (x : α) (l : List α) :
    (insertLe le x l).Perm (x :: l) := by
  induction l with
  | nil => exact List.Perm.refl _
  | cons b bs ih =>
    unfold insertLe
    split
    · exact List.Perm.refl _
    · exact (ih.cons b).trans (List.Perm.swap x b bs)

theorem isortLe_perm {α : Type} (le : α → α → Bool) (l : List α) :
    (isortLe le l).Perm l := by
  induction l with
  | nil => exact List.Perm.refl _
  | cons a l ih => exact (insertLe_perm le a (isortLe le l)).trans (ih.cons a)

theorem chainB_cons {α : Type} (le : α → α → Bool) (a b : α) (l : List α) :
    chainB le (a :: b :: l) = (le a b && chainB le (b :: l)) := rfl

theorem insertLe_chainB {α : Type} (le : α → α → Bool)
    (htot : ∀ a b, le a b = true ∨ le b a = true) (x : α) :
    ∀ l, chainB le l = true → chainB le (insertLe le x l) = true := by
  intro l
  induction l with
  | nil => intro _; rfl
  | cons b bs ih =>
    intro hch
    have hins : insertLe le x (b :: bs)
        = if le x b then x :: b :: bs else b :: insertLe le x bs := rfl
    cases hxb : le x b with
    | true =>
      rw [hins, if_pos hxb, chainB_cons]
      simp [hxb, hch]
    | false =>
      rw [hins, if_neg (by simp [hxb])]
      have hbx : le b x = true := by
        rcases htot x b with h | h
        · exact absurd h (by simp [hxb])
        · exact h
      cases bs with
      | nil => simp [insertLe, chainB, hbx]
      | cons c cs =>
        have hch' : le b c = true ∧ chainB le (c :: cs) = true := by
          rw [chainB_cons] at hch
          simpa using hch
        have hci : chainB le (insertLe le x (c :: cs)) = true := ih hch'.2
        cases hxc : le x c with
        | true =>
          have hins2 : insertLe le x (c :: cs) = x :: c :: cs := by
            simp [insertLe, hxc]
          rw [hins2] at hci
          rw [hins2, chainB_cons]
          simp [hbx, hci]
        | false =>
          have hins2 : insertLe le x (c :: cs) = c :: insertLe le x cs := by
            simp [insertLe, hxc]
          rw [hins2] at hci
          rw [hins2, chainB_cons]
          simp [hch'.1, hci]

theorem isortLe_chainB {α : Type} (le : α → α → Bool)
    (htot : ∀ a b, le a b = true ∨ le b a = true) (l : List α) :
    chainB le (isortLe le l) = true := by
  induction l with
  | nil => rfl
  | cons a l ih => exact insertLe_chainB le htot a _ ih

theorem isortLe_of_chainB {α : Type} (le : α → α → Bool) :
    ∀ l, chainB le l = true → isortLe le l = l := by
  intro l
  induction l with
  | nil => intro _; rfl
  | cons a l ih =>
    intro h
    cases l with
    | nil => rfl
    | cons b bs =>
      rw [chainB_cons] at h
      have hab : le a b = true := by
        have := h
        simp only [Bool.and_eq_true] at this
        exact this.1
      have hch : chainB le (b :: bs) = true := by
        simp only [Bool.and_eq_true] at h
        exact h.2
      show insertLe le a (isortLe le (b :: bs)) = a :: b :: bs
      rw [ih hch]
      simp [insertLe, hab]

theorem isortLe_idem {α : Type} (le : α → α → Bool)
    (htot : ∀ a b, le a b = true ∨ le b a = true) (l : List α) :
    isortLe le (isortLe le l) = isortLe le l :=
  isortLe_of_chainB le _ (isortLe_chainB le htot l)

/-- C8: the sort stage is idempotent: sorting twice with the same sort
configuration (any key and direction, sorting enabled or not) yields the
same sequence as sorting once. -/
theorem C8_sort_idempotent (sorting : Bool) (cfg : Option SortConfig) (data : List Row) :
    sortedData sorting cfg (sortedData sorting cfg data) = sortedData sorting cfg data := by
  cases sorting with
  | false => cases cfg <;> rfl
  | true =>
    cases cfg with
    | none => rfl
    | some c => exact isortLe_idem _ (rowLe_total c.direction c.key) data

theorem rowLe_iff_asc (key : String) (a b : Row) :
    rowLe .ascending key a b = true ↔ jsLt (rowGet b key) (rowGet a key) = false := by
  unfold rowLe jsCompare jsGt
  cases hab : jsLt (rowGet a key) (rowGet b key) with
  | true =>
    have hba := jsLt_asymm _ _ hab
    simp [hab, hba]
  | false =>
    cases hba : jsLt (rowGet b key) (rowGet a key) with
    | true => simp [hab, hba]
    | false => simp [hab, hba]

theorem rowLe_iff_desc (key : String) (a b : Row) :
    rowLe .descending key a b = true ↔ jsLt (rowGet a key) (rowGet b key) = false := by
  unfold rowLe jsCompare jsGt
  cases hab : jsLt (rowGet a key) (rowGet b key) with
  | true => simp [hab]
  | false =>
    cases hba : jsLt (rowGet b key) (rowGet a key) with
    | true => simp [hab, hba]
    | false => simp [hab, hba]

theorem jsLt_false_trans (va vb vc : Value)
    (hom : (isStrB va = true ∧ isStrB vb = true ∧ isStrB vc = true) ∨
      (isNumB va = true ∧ isNumB vb = true ∧ isNumB vc = true))
    (h1 : jsLt vb va = false) (h2 : jsLt vc vb = false) : jsLt vc va = false := by
  rcases hom with ⟨ha, hb, hc⟩ | ⟨ha, hb, hc⟩
  · cases va <;> simp [isStrB] at ha
    rename_i sa
    cases vb <;> simp [isStrB] at hb
    rename_i sb
    cases vc <;> simp [isStrB] at hc
    rename_i sc
    simp only [jsLt, strLtB] at h1 h2 ⊢
    cases hca : listLtB sc.data sa.data with
    | false => rfl
    | true =>
      rcases listLtB_cotrans sc.data sa.data sb.data hca with h' | h'
      · rw [h'] at h2
        simp at h2
      · rw [h'] at h1
        simp at h1
  · cases va <;> simp [isNumB] at ha
    rename_i ia
    cases vb <;> simp [isNumB] at hb
    rename_i ib
    cases vc <;> simp [isNumB] at hc
    rename_i ic
    simp only [jsLt, decide_eq_false_iff_not] at h1 h2 ⊢
    omega

theorem rowLe_trans_hom (dir : Direction) (key : String) (data : List Row)
    (hhom : HomKeyB data key = true) :
    ∀ a ∈ data, ∀ b ∈ data, ∀ c ∈ data,
      rowLe dir key a b = true → rowLe dir key b c = true → rowLe dir key a c = true := by
  have htriple : ∀ x ∈ data, ∀ y ∈ data, ∀ z ∈ data,
      (isStrB (rowGet x key) = true ∧ isStrB (rowGet y key) = true ∧
        isStrB (rowGet z key) = true) ∨
      (isNumB (rowGet x key) = true ∧ isNumB (rowGet y key) = true ∧
        isNumB (rowGet z key) = true) := by
    intro x hx y hy z hz
    have hor : (data.all fun r => isStrB (rowGet r key)) = true
        ∨ (data.all fun r => isNumB (rowGet r key)) = true := by
      simpa [HomKeyB] using hhom
    rcases hor with h | h
    · have hall := List.all_eq_true.mp h
      exact Or.inl ⟨hall x hx, hall y hy, hall z hz⟩
    · have hall := List.all_eq_true.mp h
      exact Or.inr ⟨hall x hx, hall y hy, hall z hz⟩
  intro a ha b hb c hc hab hbc
  cases dir with
  | ascending =>
    rw [rowLe_iff_asc] at hab hbc ⊢
    exact jsLt_false_trans (rowGet a key) (rowGet b key) (rowGet c key)
      (htriple a ha b hb c hc) hab hbc
  | descending =>
    rw [rowLe_iff_desc] at hab hbc ⊢
    refine jsLt_false_trans (rowGet c key) (rowGet b key) (rowGet a key) ?_ hbc hab
    rcases htriple a ha b hb c hc with ⟨x, y, z⟩ | ⟨x, y, z⟩
    · exact Or.inl ⟨z, y, x⟩
    · exact Or.inr ⟨z, y, x⟩

theorem pairwise_of_chainB {α : Type} (le : α → α → Bool) (L : List α)
    (htrans : ∀ a ∈ L, ∀ b ∈ L, ∀ c ∈ L,
      le a b = true → le b c = true → le a c = true) :
    ∀ l, (∀ x ∈ l, x ∈ L) → chainB le l = true →
      l.Pairwise (fun a b => le a b = true) := by
  intro l
  induction l with
  | nil => intro _ _; exact List.Pairwise.nil
  | cons a t ih =>
    intro hmem hch
    cases t with
    | nil => simp
    | cons b bs =>
      rw [chainB_cons] at hch
      rw [Bool.and_eq_true] at hch
      have hmem' : ∀ x ∈ b :: bs, x ∈ L := fun x hx => hmem x (List.mem_cons_of_mem a hx)
      have hpbs := ih hmem' hch.2
      refine List.Pairwise.cons ?_ hpbs
      intro y hy
      rcases List.mem_cons.mp hy with rfl | hy'
      · exact hch.1
      · have hby : le b y = true := (List.pairwise_cons.mp hpbs).1 y hy'
        exact htrans a (hmem a (List.mem_cons_self a _)) b (hmem' b (List.mem_cons_self b _))
          y (hmem' y hy) hch.1 hby

theorem filter_insertLe {α : Type} (le : α → α → Bool) (p : α → Bool) (x : α) :
    ∀ l, (p x = true → ∀ b ∈ l, p b = true → le x b = true) →
      (insertLe le x l).filter p
        = if p x = true then x :: l.filter p else l.filter p := by
  intro l
  induction l with
  | nil =>
    intro _
    cases hx : p x <;> simp [insertLe, List.filter_cons, hx]
  | cons b bs ih =>
    intro h
    cases hxb : le x b with
    | true =>
      rw [show insertLe le x (b :: bs) = x :: b :: bs from by simp [insertLe, hxb]]
      cases hx : p x <;> simp [List.filter_cons, hx]
    | false =>
      rw [show insertLe le x (b :: bs) = b :: insertLe le x bs from by simp [insertLe, hxb]]
      have ih' := ih fun hpx b' hb' hpb' => h hpx b' (List.mem_cons_of_mem b hb') hpb'
      cases hx : p x with
      | true =>
        have hpb : p b = false := by
          cases hpb : p b with
          | false => rfl
          | true =>
            have := h hx b (List.mem_cons_self b bs) hpb
            exact absurd this (by simp [hxb])
        rw [if_pos hx] at ih'
        simp [List.filter_cons, hpb, hx, ih']
      | false =>
        rw [if_neg (by simp [hx])] at ih'
        cases hpb : p b <;> simp [List.filter_cons, hx, hpb, ih']

theorem filter_isortLe {α : Type} (le : α → α → Bool) (p : α → Bool) :
    ∀ l, (∀ a ∈ l, ∀ b ∈ l, p a = true → p b = true → le a b = true) →
      (isortLe le l).filter p = l.filter p := by
  intro l
  induction l with
  | nil => intro _; rfl
  | cons a t ih =>
    intro h
    show (insertLe le a (isortLe le t)).filter p = _
    have hcond : p a = true → ∀ b ∈ isortLe le t, p b = true → le a b = true := by
      intro hpa b hb hpb
      have hbt : b ∈ t := ((isortLe_perm le t).mem_iff).mp hb
      exact h a (List.mem_cons_self a t) b (List.mem_cons_of_mem a hbt) hpa hpb
    rw [filter_insertLe le p a (isortLe le t) hcond]
    rw [ih fun a' ha' b' hb' => h a' (List.mem_cons_of_mem a ha') b' (List.mem_cons_of_mem a hb')]
    cases hpa : p a <;> simp [List.filter_cons, hpa]

/-- C4: with a homogeneous key (the regime where the spec's "native
ordering" is meaningful), the sort: is a permutation of the caller's intact
input; is ordered by the comparator (every earlier row compares `≤ 0`
against every later one); is stable (comparator-equal rows keep their
relative input order, stated through filters by comparator-equal classes);
flips the comparator's sign for `descending`; and on the spec's scenario
one header click yields Amy, Bob, Cid and a second click Cid, Bob, Amy. -/
theorem C4_sort_spec (data : List Row) (key : String) (hhom : HomKeyB data key = true) :
    (∀ dir, (sortedData true (some ⟨key, dir⟩) data).Perm data) ∧
    (∀ dir, (sortedData true (some ⟨key, dir⟩) data).Pairwise
      fun a b => jsCompare dir (rowGet a key) (rowGet b key) ≤ 0) ∧
    (∀ (dir : Direction) (p : Row → Bool),
      (∀ a ∈ data, ∀ b ∈ data, p a = true → p b = true →
        jsCompare dir (rowGet a key) (rowGet b key) = 0) →
      (sortedData true (some ⟨key, dir⟩) data).filter p = data.filter p) ∧
    (∀ a b : Value, jsCompare .descending a b = - jsCompare .ascending a b) ∧
    sortedData true (handleSort "name" none) [bobRow, amyRow, cidRow]
      = [amyRow, bobRow, cidRow] ∧
    sortedData true (handleSort "name" (handleSort "name" none)) [bobRow, amyRow, cidRow]
      = [cidRow, bobRow, amyRow] := by
  refine ⟨?_, ?_, ?_, jsCompare_desc, by decide, by decide⟩
  · intro dir
    exact isortLe_perm (rowLe dir key) data
  · intro dir
    have hpair := pairwise_of_chainB (rowLe dir key) data (rowLe_trans_hom dir key data hhom)
      (isortLe (rowLe dir key) data)
      (fun x hx => ((isortLe_perm (rowLe dir key) data).mem_iff).mp hx)
      (isortLe_chainB (rowLe dir key) (rowLe_total dir key) data)
    exact hpair.imp fun h => of_decide_eq_true h
  · intro dir p hp
    refine filter_isortLe (rowLe dir key) p data ?_
    intro a ha b hb hpa hpb
    unfold rowLe
    rw [hp a ha b hb hpa hpb]
    decide

/-- Witness for C4: the spec's Bob/Amy/Cid scenario data is homogeneous at
`"name"`, and the ascending sort is a permutation of it. -/
theorem C4_sort_spec_witness :
    HomKeyB [bobRow, amyRow, cidRow] "name" = true ∧
    (sortedData true (some ⟨"name", .ascending⟩) [bobRow, amyRow, cidRow]).Perm
      [bobRow, amyRow, cidRow] :=
  ⟨by decide, (C4_sort_spec [bobRow, amyRow, cidRow] "name" (by decide)).1 .ascending⟩

/-! ### The reachability invariant (claim C1) -/

theorem sortedData_perm (sorting : Bool) (cfg : Option SortConfig) (data : List Row) :
    (sortedData sorting cfg data).Perm data := by
  cases sorting with
  | false => cases cfg <;> exact List.Perm.refl _
  | true =>
    cases cfg with
    | none => exact List.Perm.refl _
    | some c => exact isortLe_perm _ data

theorem ceilDiv_zero_left (m : Nat) : ceilDiv 0 m = 0 := by
  unfold ceilDiv
  rcases Nat.eq_zero_or_pos m with rfl | hm
  · rfl
  · exact Nat.div_eq_of_lt (by omega)

theorem ceilDiv_ge_one (n m : Nat) (hn : 0 < n) (hm : 0 < m) : 1 ≤ ceilDiv n m := by
  unfold ceilDiv
  rw [Nat.le_div_iff_mul_le hm]
  omega

theorem fcountD_eq (P : TableProps) (s : WState) (hdef : AllDefB P.columns P.data = true) :
    fcountD P s = if P.filtering = true ∧ s.searchTerm ≠ "" then
        (P.data.filter (totalMatch P.columns s.searchTerm)).length
      else P.data.length := by
  by_cases hf : P.filtering = false ∨ s.searchTerm = ""
  · unfold fcountD pipelineE filteredDataE
    rw [if_pos hf, if_neg (by
      intro hcon
      rcases hf with h | h
      · rw [h] at hcon
        exact absurd hcon.1 (by simp)
      · exact hcon.2 h)]
    simp only [Option.getD_some]
    exact (sortedData_perm P.sorting s.sortConfig P.data).length_eq
  · unfold fcountD pipelineE filteredDataE
    rw [if_neg hf]
    have hf2 : s.searchTerm ≠ "" := fun h => hf (Or.inr h)
    have hf1 : P.filtering = true := by
      cases hpf : P.filtering
      · exact absurd (Or.inl hpf) hf
      · rfl
    rw [if_pos ⟨hf1, hf2⟩]
    have hdef' : ∀ r ∈ sortedData P.sorting s.sortConfig P.data, ∀ c ∈ P.columns,
        rowGet r c.accessor ≠ .undefined := by
      intro r hr c hc
      exact allDef_spec P.columns P.data hdef r
        (((sortedData_perm P.sorting s.sortConfig P.data).mem_iff).mp hr) c hc
    rw [filterE_eq_filter P.columns s.searchTerm _ hdef']
    simp only [Option.getD_some]
    exact ((sortedData_perm P.sorting s.sortConfig P.data).filter _).length_eq

theorem totalPagesD_congr (P : TableProps) (s1 s2 : WState)
    (hps : s1.pageSize = s2.pageSize) (hc : fcountD P s1 = fcountD P s2) :
    totalPagesD P s1 = totalPagesD P s2 := by
  unfold totalPagesD
  rw [hps, hc]

/-- C1, amended.  The claim as frozen is false (see `C1_counterexample`):
the code never floors `totalPages` to 1, so with zero filtered rows
`totalPages = 0` and page 1 (or even page 0, reachable via an enabled Next
click at `totalPages = 0`) is outside `[1, totalPages]`.  What does hold on
every state reachable through the handlers (over data whose accessor fields
are all defined and a positive initial page size): the page size stays
positive; while the filtered count is positive, `currentPage` stays within
`[1, totalPages]` with `totalPages = ceil(filteredCount / pageSize)`; and
when the filtered count is 0, `totalPages = 0` and `currentPage ≤ 1`. -/
theorem C1_amended (P : TableProps) (ps0 : Nat) (hps0 : 0 < ps0)
    (hdef : AllDefB P.columns P.data = true) (s : WState) (hreach : Reachable P ps0 s) :
    0 < s.pageSize ∧
    (0 < fcountD P s → 1 ≤ s.currentPage ∧ s.currentPage ≤ totalPagesD P s) ∧
    (fcountD P s = 0 → totalPagesD P s = 0 ∧ s.currentPage ≤ 1) := by
  unfold Reachable at hreach
  induction hreach with
  | refl =>
    refine ⟨hps0, ?_, ?_⟩
    · intro hcnt
      exact ⟨le_refl 1, ceilDiv_ge_one _ _ hcnt hps0⟩
    · intro hcnt
      refine ⟨?_, le_refl 1⟩
      unfold totalPagesD totalPages
      rw [hcnt]
      exact ceilDiv_zero_left _
  | @tail u v hsteps hstep ih =>
    cases hstep with
    | search t _ =>
      refine ⟨ih.1, ?_, ?_⟩
      · intro hcnt
        exact ⟨le_refl 1, ceilDiv_ge_one _ _ hcnt ih.1⟩
      · intro hcnt
        refine ⟨?_, le_refl 1⟩
        unfold totalPagesD totalPages
        rw [hcnt]
        exact ceilDiv_zero_left _
    | selectSize n _ hn =>
      have hpos : 0 < n := by rcases hn with h | h | h | h <;> omega
      refine ⟨hpos, ?_, ?_⟩
      · intro hcnt
        exact ⟨le_refl 1, ceilDiv_ge_one _ _ hcnt hpos⟩
      · intro hcnt
        refine ⟨?_, le_refl 1⟩
        unfold totalPagesD totalPages
        rw [hcnt]
        exact ceilDiv_zero_left _
    | sortHeader col _ hcol hsort hsortable =>
      have he : fcountD P { u with sortConfig := handleSort col.accessor u.sortConfig }
          = fcountD P u := by
        rw [fcountD_eq P _ hdef, fcountD_eq P u hdef]
      have ht : totalPagesD P { u with sortConfig := handleSort col.accessor u.sortConfig }
          = totalPagesD P u := totalPagesD_congr P _ u rfl he
      refine ⟨ih.1, ?_, ?_⟩
      · intro hcnt
        rw [he] at hcnt
        rw [ht]
        exact ih.2.1 hcnt
      · intro hcnt
        rw [he] at hcnt
        rw [ht]
        exact ih.2.2 hcnt
    | prevB _ h =>
      have he : fcountD P { u with currentPage := prevClick u.currentPage }
          = fcountD P u := by
        rw [fcountD_eq P _ hdef, fcountD_eq P u hdef]
      have ht : totalPagesD P { u with currentPage := prevClick u.currentPage }
          = totalPagesD P u := totalPagesD_congr P _ u rfl he
      refine ⟨ih.1, ?_, ?_⟩
      · intro hcnt
        rw [he] at hcnt
        rw [ht]
        have hold := ih.2.1 hcnt
        show 1 ≤ prevClick u.currentPage ∧ prevClick u.currentPage ≤ totalPagesD P u
        unfold prevClick
        omega
      · intro hcnt
        rw [he] at hcnt
        rw [ht]
        have hold := ih.2.2 hcnt
        refine ⟨hold.1, ?_⟩
        show prevClick u.currentPage ≤ 1
        unfold prevClick
        omega
    | nextB _ h =>
      have he : fcountD P { u with
          currentPage := nextClick u.currentPage (totalPagesD P u) } = fcountD P u := by
        rw [fcountD_eq P _ hdef, fcountD_eq P u hdef]
      have ht : totalPagesD P { u with
          currentPage := nextClick u.currentPage (totalPagesD P u) }
          = totalPagesD P u := totalPagesD_congr P _ u rfl he
      refine ⟨ih.1, ?_, ?_⟩
      · intro hcnt
        rw [he] at hcnt
        rw [ht]
        have hold := ih.2.1 hcnt
        show 1 ≤ nextClick u.currentPage (totalPagesD P u)
          ∧ nextClick u.currentPage (totalPagesD P u) ≤ totalPagesD P u
        unfold nextClick
        omega
      · intro hcnt
        rw [he] at hcnt
        rw [ht]
        have hold := ih.2.2 hcnt
        refine ⟨hold.1, ?_⟩
        show nextClick u.currentPage (totalPagesD P u) ≤ 1
        unfold nextClick
        omega

/-- Witness for the amended C1: a one-row table at mount, where the
filtered count is positive and page 1 lies within `[1, totalPages]`. -/
theorem C1_amended_witness :
    (0 < 10 ∧ AllDefB [nameColumn] [amyRow] = true) ∧
    (0 < fcountD ⟨[nameColumn], [amyRow], false, true⟩ (initState 10) →
      1 ≤ (initState 10).currentPage ∧
      (initState 10).currentPage
        ≤ totalPagesD ⟨[nameColumn], [amyRow], false, true⟩ (initState 10)) := by
  have h := C1_amended ⟨[nameColumn], [amyRow], false, true⟩ 10 (by decide) (by decide)
    (initState 10) Relation.ReflTransGen.refl
  exact ⟨⟨by decide, by decide⟩, h.2.1⟩

/-- C1 is false as stated: at mount over an empty data array the filtered
count is 0 but `totalPages = ceil(0 / 10) = 0`, not at least 1, and
`currentPage = 1` is not within `[1, totalPages]`; moreover the Next button
is then *enabled* (1 ≠ 0) and clicking it drives `currentPage` to 0. -/
theorem C1_counterexample :
    Reachable ⟨[nameColumn], [], false, false⟩ 10 (initState 10) ∧
    fcountD ⟨[nameColumn], [], false, false⟩ (initState 10) = 0 ∧
    totalPagesD ⟨[nameColumn], [], false, false⟩ (initState 10) = 0 ∧
    ¬(1 ≤ (initState 10).currentPage ∧
      (initState 10).currentPage
        ≤ totalPagesD ⟨[nameColumn], [], false, false⟩ (initState 10)) ∧
    Reachable ⟨[nameColumn], [], false, false⟩ 10 ⟨0, 10, "", none⟩ := by
  refine ⟨Relation.ReflTransGen.refl, by decide, by decide, by decide, ?_⟩
  exact Relation.ReflTransGen.tail Relation.ReflTransGen.refl
    (Step.nextB (initState 10) (by decide))
